import Mathlib

/-!
Verification of the chunking engine of the olympiad-books pipeline
(src/chunk.py).  Python strings are embedded as lists of characters
(Python `len` counts code points, matching `List.length` on `Char`);
Python integers are embedded as `Nat` (every quantity involved — lengths,
token estimates, budgets — is non-negative).
-/

/-- Embedding of Python `str` as a list of unicode scalar values. -/
abbrev PyStr := List Char

/-- The blank-line separator `'\n\n'` used by `'\n\n'.join` in chunk.py. -/
def nl2 : PyStr := ['\n', '\n']

/-- The whitespace class used by Python `str.strip()` and the regex class
`\s` (space, tab, newline, carriage return, vertical tab, form feed). -/
def pySpace (c : Char) : Bool :=
  c = ' ' || c = '\t' || c = '\n' || c = '\r' || c = '\x0b' || c = '\x0c'

/-- Python `text.strip()`: drop whitespace from both ends. -/
def pyStrip (cs : PyStr) : PyStr :=
  ((cs.dropWhile pySpace).reverse.dropWhile pySpace).reverse

/-- `estimate_tokens` (src/chunk.py:212-213): `int(len(text) / 3.5)`.
For every length below 2^52 the IEEE double division `n / 3.5` rounds to a
value whose truncation equals the exact floor, so the function is embedded
as exact floor division: `int(n / 3.5) = ⌊2n/7⌋`. -/
def estimate_tokens (text : PyStr) : Nat :=
  2 * text.length / 7

mutual

/-- Paragraph split `re.split(r'\n\n+', text)`: separators are maximal runs
of two or more consecutive newlines; `acc` holds the current paragraph,
reversed.  On seeing two consecutive newlines the current paragraph is
emitted and `splitParasSkip` consumes the rest of the newline run. -/
def splitParasAux (acc : PyStr) : PyStr → List PyStr
  | [] => [acc.reverse]
  | c :: rest =>
    if c = '\n' ∧ rest.head? = some '\n' then
      acc.reverse :: splitParasSkip rest
    else
      splitParasAux (c :: acc) rest

/-- Consume the remaining newlines of a separator run, then resume
splitting at the first other character (a separator at end of text leaves a
final empty paragraph, as `re.split` does). -/
def splitParasSkip : PyStr → List PyStr
  | [] => [[]]
  | c :: rest =>
    if c = '\n' then splitParasSkip rest
    else splitParasAux [c] rest

end

/-- The paragraph list of a text, as produced by `re.split(r'\n\n+', text)`. -/
def splitParas (text : PyStr) : List PyStr := splitParasAux [] text

/-- Greedy paragraph packing loop of `split_at_paragraphs`
(src/chunk.py:426-444): `current` is the pending paragraph group,
`currentLen` the running sum of their token estimates. -/
def splitLoop (maxT : Nat) (current : List PyStr) (currentLen : Nat) :
    List PyStr → List PyStr
  | [] => if current.isEmpty then [] else [List.intercalate nl2 current]
  | para :: rest =>
    let paraTokens := estimate_tokens para
    if currentLen + paraTokens > maxT ∧ ¬current.isEmpty then
      List.intercalate nl2 current :: splitLoop maxT [para] paraTokens rest
    else
      splitLoop maxT (current ++ [para]) (currentLen + paraTokens) rest

/-- `split_at_paragraphs` (src/chunk.py:426-444). -/
def split_at_paragraphs (text : PyStr) (max_tokens : Nat) : List PyStr :=
  if estimate_tokens text ≤ max_tokens then [text]
  else splitLoop max_tokens [] 0 (splitParas text)

/-- Ghost variant of `splitLoop` returning the paragraph groups that
`splitLoop` joins into pieces; mirrors `splitLoop` branch for branch. -/
def splitLoopG (maxT : Nat) (current : List PyStr) (currentLen : Nat) :
    List PyStr → List (List PyStr)
  | [] => if current.isEmpty then [] else [current]
  | para :: rest =>
    let paraTokens := estimate_tokens para
    if currentLen + paraTokens > maxT ∧ ¬current.isEmpty then
      current :: splitLoopG maxT [para] paraTokens rest
    else
      splitLoopG maxT (current ++ [para]) (currentLen + paraTokens) rest

/-- The paragraph groups underlying the pieces of `split_at_paragraphs`. -/
def splitGroups (text : PyStr) (max_tokens : Nat) : List (List PyStr) :=
  if estimate_tokens text ≤ max_tokens then [[text]]
  else splitLoopG max_tokens [] 0 (splitParas text)

/-- `true` iff the text has no run of three or more consecutive newlines
(so every paragraph separator matched by the splitter is exactly two
newlines). -/
def noTriple : PyStr → Bool
  | c1 :: c2 :: c3 :: rest =>
    (!(c1 = '\n' && c2 = '\n' && c3 = '\n')) && noTriple (c2 :: c3 :: rest)
  | _ => true

/-- A section record produced by `parse_sections` (src/chunk.py:359-387):
`header` is `none` for the preamble, `level` the number of leading `#`. -/
structure PySection where
  header : Option PyStr
  level : Nat
  body : PyStr
deriving DecidableEq

/-- The `type` field of a block dict: `'prose'`, an environment, or a proof. -/
inductive BlockType
  | prose
  | env
  | proofKind
deriving DecidableEq

/-- A block dict from `split_into_blocks` (src/chunk.py:390-423); prose
blocks carry no label (`none`). -/
structure Block where
  type : BlockType
  label : Option PyStr := none
  text : PyStr
deriving DecidableEq

/-- The chapter-level metadata dict spread into every chunk
(src/chunk.py:550-558); opaque pass-through strings. -/
structure ChapterMeta where
  book : PyStr := []
  book_key : PyStr := []
  subject : PyStr := []
  level : PyStr := []
  part : PyStr := []
  chapter : PyStr := []
  source_file : PyStr := []
deriving DecidableEq

/-- A chunk dict (src/chunk.py:500-506).  The Python dict spreads the
metadata fields at top level; they are grouped in `meta` here.  The Python
`section` key is named `sectionLabel` (`section` is a Lean keyword).
`chunk_id` is only set by the final renumbering pass; it defaults to 0. -/
structure Chunk where
  meta : ChapterMeta
  sectionLabel : PyStr
  text : PyStr
  tokens_est : Nat
  chunk_id : Nat := 0
deriving DecidableEq

/-- `make_chunk` (src/chunk.py:500-506). -/
def make_chunk (text : PyStr) (meta : ChapterMeta) (section_header : PyStr) :
    Chunk :=
  { meta := meta, sectionLabel := section_header, text := text,
    tokens_est := estimate_tokens text }

/-- Recognition of one line by the header regex `^(#{2,4})[ \t]+(.+)$`
used both by the `re.split` delimiter and the `re.match` in the loop of
`parse_sections`.  Returns `(level, stripped header text)` on a match.
The line matches iff its leading run of `#` has length 2..4 and is
followed by at least one space/tab and at least one further character
(which may itself be whitespace, via regex backtracking; the stripped
capture is then empty either way). -/
def headerInfo (line : PyStr) : Option (Nat × PyStr) :=
  let h := (line.takeWhile (· = '#')).length
  if 2 ≤ h ∧ h ≤ 4 then
    match line.drop h with
    | [] => none
    | c :: rest =>
      if (c = ' ' ∨ c = '\t') ∧ rest ≠ [] then
        some (h, pyStrip ((c :: rest).dropWhile (fun x => x = ' ' || x = '\t')))
      else none
  else none

/-- An element of the `parts` list produced by
`re.split(r'^(#{2,4}[ \t]+.+)$', text, flags=re.MULTILINE)`: either a text
segment between header lines or a captured header line. -/
inductive SplitPart
  | seg (s : PyStr)
  | hdr (line : PyStr)
deriving DecidableEq

/-- Builds the alternating `re.split` part list from the line list:
`curSeg` accumulates (reversed) the non-header lines of the current
segment; each header line closes the segment.  The newlines that the regex
leaves at segment boundaries are dropped here; they are erased by the
`.strip()` applied to every section body, so the stripped bodies agree. -/
def partsLoop (curSeg : List PyStr) : List PyStr → List SplitPart
  | [] => [SplitPart.seg (List.intercalate ['\n'] curSeg.reverse)]
  | l :: rest =>
    if (headerInfo l).isSome then
      SplitPart.seg (List.intercalate ['\n'] curSeg.reverse)
        :: SplitPart.hdr l :: partsLoop [] rest
    else partsLoop (l :: curSeg) rest

/-- The part list of `re.split` on the multiline header-line regex: it
always begins and ends with a (possibly empty) segment, and segments and
captured header lines alternate. -/
def toParts (lines : List PyStr) : List SplitPart := partsLoop [] lines

/-- The accumulation loop of `parse_sections` (src/chunk.py:366-386):
a section is emitted when a header (or end of input) is reached and the
accumulated body list is non-empty or a header is current. -/
def sectionsLoop (curHeader : Option PyStr) (curLevel : Nat)
    (curBody : List PyStr) : List SplitPart → List PySection
  | [] =>
    if curBody ≠ [] ∨ curHeader ≠ none then
      [{ header := curHeader, level := curLevel,
         body := pyStrip (List.intercalate ['\n'] curBody) }]
    else []
  | SplitPart.seg s :: rest => sectionsLoop curHeader curLevel (curBody ++ [s]) rest
  | SplitPart.hdr line :: rest =>
    let emitted : List PySection :=
      if curBody ≠ [] ∨ curHeader ≠ none then
        [{ header := curHeader, level := curLevel,
           body := pyStrip (List.intercalate ['\n'] curBody) }]
      else []
    match headerInfo line with
    | some (lvl, htext) => emitted ++ sectionsLoop (some htext) lvl [] rest
    | none => emitted ++ sectionsLoop curHeader curLevel [] rest

/-- `parse_sections` (src/chunk.py:359-387). -/
def parse_sections (text : PyStr) : List PySection :=
  sectionsLoop none 0 [] (toParts (text.splitOn '\n'))

/-- The environment keywords of `ENV_PATTERN` (src/chunk.py:347-354),
in alternation order.  No keyword is a prefix of another, so first-match
lookup coincides with the regex alternation. -/
def envKeywords : List PyStr :=
  [("Theorem").data, ("Lemma").data, ("Proposition").data, ("Corollary").data,
   ("Definition").data, ("Example").data, ("Remark").data, ("Conjecture").data,
   ("Axiom").data, ("Principle").data, ("Convention").data, ("Exercise").data,
   ("Investigation").data, ("Activity").data, ("Exploration").data,
   ("Objectives").data, ("Worksheet").data, ("Assemblage").data]

/-- Match `\.?\*\*` at the start of `s` (greedy optional dot, then two
stars); returns the remainder on success. -/
def matchDotStars : PyStr → Option PyStr
  | '.' :: '*' :: '*' :: r => some r
  | '*' :: '*' :: r => some r
  | _ => none

/-- After an opening parenthesis, match the lazy `.*?\)` followed by
`\.?\*\*`: try each `)` in order (the `.` class excludes newlines, so the
search stops at a newline or end of text), exactly as regex backtracking
grows the lazy group to the next `)` when the tail fails. -/
def tryParenClose : PyStr → Option PyStr
  | [] => none
  | c :: r =>
    if c = '\n' then none
    else if c = ')' then
      match matchDotStars r with
      | some rem => some rem
      | none => tryParenClose r
    else tryParenClose r

/-- Match `ENV_PATTERN` at the start of `s` (which the caller guarantees is
a line start): `\*\*(Keyword)(?:\s*\(.*?\))?\.?\*\*`.  Returns the matched
keyword and the remainder of the text after the match.  The optional
parenthesized group is tried first (regex `?` is greedy); if the maximal
`\s*` run is not followed by `(`, or no viable `)` exists, the group is
skipped and matching resumes directly after the keyword. -/
def matchEnvAt (s : PyStr) : Option (PyStr × PyStr) :=
  match s with
  | '*' :: '*' :: s1 =>
    match envKeywords.findSome?
        (fun k => if k.isPrefixOf s1 then some (k, s1.drop k.length) else none) with
    | none => none
    | some (k, s2) =>
      let viaGroup : Option PyStr :=
        match s2.dropWhile pySpace with
        | '(' :: s4 => tryParenClose s4
        | _ => none
      match viaGroup with
      | some rem => some (k, rem)
      | none =>
        match matchDotStars s2 with
        | some rem => some (k, rem)
        | none => none
  | _ => none

/-- `ENV_PATTERN.finditer` (src/chunk.py:397-398): scan every line-start
position left to right, recording `(start offset, keyword)` for each match
and resuming after the match end (matches are non-overlapping).  A match
never ends in a newline, so the position after a match is not a line
start.  `fuel` is structural-recursion fuel; the caller passes the text
length, which bounds the number of steps (each step strictly shortens the
text: a match consumes at least four characters). -/
def scanEnvF : Nat → Nat → PyStr → Bool → List (Nat × PyStr)
  | 0, _, _, _ => []
  | fuel + 1, pos, s, atStart =>
    match s with
    | [] => []
    | c :: rest =>
      if atStart then
        match matchEnvAt (c :: rest) with
        | some (k, rem) =>
          (pos, k) :: scanEnvF fuel (pos + ((c :: rest).length - rem.length)) rem false
        | none => scanEnvF fuel (pos + 1) rest (c = '\n')
      else scanEnvF fuel (pos + 1) rest (c = '\n')

/-- All `ENV_PATTERN` matches of a text: `(start offset, keyword)` pairs in
increasing position order. -/
def scanEnv (text : PyStr) : List (Nat × PyStr) := scanEnvF text.length 0 text true

/-- The literal `*Proof.*` of `PROOF_PATTERN` (src/chunk.py:356). -/
def proofMarker : PyStr := ("*Proof.*").data

/-- `PROOF_PATTERN.finditer`: the pattern matches the 8-character literal
`*Proof.*` at line starts; scanning resumes after each match.  `fuel` as in
`scanEnvF`. -/
def scanProofF : Nat → Nat → PyStr → Bool → List Nat
  | 0, _, _, _ => []
  | fuel + 1, pos, s, atStart =>
    match s with
    | [] => []
    | c :: rest =>
      if atStart ∧ proofMarker.isPrefixOf (c :: rest) then
        pos :: scanProofF fuel (pos + 8) ((c :: rest).drop 8) false
      else scanProofF fuel (pos + 1) rest (c = '\n')

/-- All `PROOF_PATTERN` match offsets of a text, in increasing order. -/
def scanProof (text : PyStr) : List Nat := scanProofF text.length 0 text true

/-- One entry of the sorted `markers` list (src/chunk.py:394-401). -/
structure Marker where
  pos : Nat
  kind : BlockType
  label : PyStr
deriving DecidableEq

/-- `markers.sort(key=lambda x: x[0])`: both scans emit positions in
increasing order and the env list precedes the proof list in the unsorted
concatenation, so the stable sort is a stable two-list merge by position
(ties take the env entry first).  `fuel` bounds the total length of the two
lists. -/
def mergeMarkersF : Nat → List Marker → List Marker → List Marker
  | 0, xs, ys => xs ++ ys
  | fuel + 1, xs, ys =>
    match xs, ys with
    | [], ys => ys
    | x :: xs, [] => x :: xs
    | x :: xs, y :: ys =>
      if x.pos ≤ y.pos then x :: mergeMarkersF fuel xs (y :: ys)
      else y :: mergeMarkersF fuel (x :: xs) ys

/-- Stable merge of the env and proof marker lists by position. -/
def mergeMarkers (xs ys : List Marker) : List Marker :=
  mergeMarkersF (xs.length + ys.length) xs ys

/-- Python slice `text[a:b]`. -/
def sliceStr (text : PyStr) (a b : Nat) : PyStr := (text.drop a).take (b - a)

/-- The marker loop of `split_into_blocks` (src/chunk.py:403-412): for each
marker, emit any non-empty prose strictly between the previous position and
the marker, then the marker's block running to the next marker (or end of
text); `pos` advances to the block end. -/
def blocksLoop (text : PyStr) (pos : Nat) : List Marker → List Block
  | [] => []
  | m :: rest =>
    let prose := pyStrip (sliceStr text pos m.pos)
    let proseBlocks : List Block :=
      if pos < m.pos ∧ prose ≠ [] then [{ type := .prose, text := prose }] else []
    let endPos := match rest with
      | [] => text.length
      | m2 :: _ => m2.pos
    let blockText := pyStrip (sliceStr text m.pos endPos)
    let markerBlocks : List Block :=
      if blockText ≠ [] then
        [{ type := m.kind, label := some m.label, text := blockText }]
      else []
    proseBlocks ++ markerBlocks ++ blocksLoop text endPos rest

/-- `split_into_blocks` (src/chunk.py:390-423), including the trailing
prose branch (line 414) and the no-marker branch (line 419), both of which
fire when the text has no markers. -/
def split_into_blocks (text : PyStr) : List Block :=
  if pyStrip text = [] then []
  else
    let envs := (scanEnv text).map
      (fun pk => { pos := pk.1, kind := .env, label := pk.2 : Marker })
    let proofs := (scanProof text).map
      (fun p => { pos := p, kind := .proofKind, label := ("Proof").data : Marker })
    let markers := mergeMarkers envs proofs
    let main := blocksLoop text 0 markers
    let posAfter := if markers.isEmpty then 0 else text.length
    let trailing : List Block :=
      if posAfter < text.length then
        let t := pyStrip (text.drop posAfter)
        if t ≠ [] then [{ type := .prose, text := t }] else []
      else []
    let noMarkerDupe : List Block :=
      if markers.isEmpty then
        let st := pyStrip text
        if st ≠ [] then [{ type := .prose, text := st }] else []
      else []
    main ++ trailing ++ noMarkerDupe

/-- The `flush()` closure of `chunk_chapter` (src/chunk.py:465-474):
a non-empty pending accumulator becomes one chunk whose text is the
blank-line join of the accumulated block texts. -/
def flushChunk (meta : ChapterMeta) (hdr : PyStr) (pending : List PyStr) :
    List Chunk :=
  if pending.isEmpty then []
  else [make_chunk (List.intercalate nl2 pending) meta hdr]

/-- The per-section packing loop of `chunk_chapter` (src/chunk.py:476-490):
an oversized block flushes the accumulator and emits its paragraph-splitter
pieces directly; otherwise the block is appended, flushing first if the
running token sum would exceed the budget. -/
def assembleLoop (maxT : Nat) (meta : ChapterMeta) (hdr : PyStr)
    (pending : List PyStr) (pendingTokens : Nat) : List Block → List Chunk
  | [] => flushChunk meta hdr pending
  | b :: rest =>
    let blockTokens := estimate_tokens b.text
    if blockTokens > maxT then
      flushChunk meta hdr pending
        ++ (split_at_paragraphs b.text maxT).map (fun p => make_chunk p meta hdr)
        ++ assembleLoop maxT meta hdr [] 0 rest
    else if pendingTokens + blockTokens > maxT then
      flushChunk meta hdr pending ++ assembleLoop maxT meta hdr [b.text] blockTokens rest
    else
      assembleLoop maxT meta hdr (pending ++ [b.text]) (pendingTokens + blockTokens) rest

/-- The pre-merge `raw_chunks` list built by `chunk_chapter`
(src/chunk.py:455-490) from the already-cleaned chapter body; the section
label is the header text, or the empty string for the preamble
(`section["header"] or ""`). -/
def raw_chunks (body : PyStr) (meta : ChapterMeta) (max_tokens : Nat) :
    List Chunk :=
  (parse_sections body).flatMap fun s =>
    assembleLoop max_tokens meta (s.header.getD []) [] 0 (split_into_blocks s.body)

/-- The merge guard of `merge_small_chunks` (src/chunk.py:516-522):
`can_merge and (same_section and (prev_tiny or chunk_tiny) or prev_tiny and
prev.tokens_est < min_tokens // 2)` — the explicit parenthesis in the
source makes `can_merge` gate both disjuncts. -/
def mergeCond (minT maxT : Nat) (prev c : Chunk) : Bool :=
  let can_merge : Bool := decide (prev.tokens_est + c.tokens_est ≤ maxT)
  let same_section : Bool := prev.sectionLabel == c.sectionLabel
  let prev_tiny : Bool := decide (prev.tokens_est < minT)
  let chunk_tiny : Bool := decide (c.tokens_est < minT)
  can_merge && (same_section && (prev_tiny || chunk_tiny)
    || prev_tiny && decide (prev.tokens_est < minT / 2))

/-- The in-place merge of src/chunk.py:523-526: the accumulator's text is
extended, its token estimate recomputed from the new text, and its section
label replaced by the incoming chunk's exactly when the incoming chunk's
stored `tokens_est` exceeds the freshly recomputed (post-merge) value. -/
def mergedChunk (prev c : Chunk) : Chunk :=
  let text := prev.text ++ nl2 ++ c.text
  let tokens := estimate_tokens text
  { prev with
    text := text
    tokens_est := tokens
    sectionLabel := if c.tokens_est > tokens then c.sectionLabel else prev.sectionLabel }

/-- The fold of `merge_small_chunks` (src/chunk.py:513-529): `prev` is the
last element of the merged output list. -/
def mergeLoop (minT maxT : Nat) (prev : Chunk) : List Chunk → List Chunk
  | [] => [prev]
  | c :: rest =>
    if mergeCond minT maxT prev c then mergeLoop minT maxT (mergedChunk prev c) rest
    else prev :: mergeLoop minT maxT c rest

/-- `merge_small_chunks` (src/chunk.py:509-529). -/
def merge_small_chunks (chunks : List Chunk) (minT maxT : Nat) : List Chunk :=
  if chunks.length ≤ 1 then chunks
  else
    match chunks with
    | [] => []
    | c :: rest => mergeLoop minT maxT c rest

/-- Ghost variant of `mergeLoop` recording each merge actually performed as
the pair (accumulator state at merge time, incoming chunk). -/
def mergeLoopEv (minT maxT : Nat) (prev : Chunk) : List Chunk → List (Chunk × Chunk)
  | [] => []
  | c :: rest =>
    if mergeCond minT maxT prev c then
      (prev, c) :: mergeLoopEv minT maxT (mergedChunk prev c) rest
    else mergeLoopEv minT maxT c rest

/-- The merges performed by `merge_small_chunks` on a given input. -/
def mergeEvents (chunks : List Chunk) (minT maxT : Nat) : List (Chunk × Chunk) :=
  if chunks.length ≤ 1 then []
  else
    match chunks with
    | [] => []
    | c :: rest => mergeLoopEv minT maxT c rest

/-- `chunk_chapter` (src/chunk.py:448-497) from the point after `preclean`
and the h1-title strip (lines 450-453), which are pure text preprocessing
performed before any chunking logic: build the raw chunks, merge small
neighbours, drop chunks under the 20-token floor, and assign sequential
zero-based chunk ids. -/
def chunk_chapter_body (body : PyStr) (meta : ChapterMeta)
    (min_tokens max_tokens : Nat) : List Chunk :=
  let chunks := merge_small_chunks (raw_chunks body meta max_tokens) min_tokens max_tokens
  let kept := chunks.filter (fun c => 20 ≤ c.tokens_est)
  kept.enum.map fun ic => { ic.2 with chunk_id := ic.1 }

/-- The origin of one raw chunk: a flushed accumulator group of block
texts, or a single paragraph-splitter piece from an oversized block. -/
inductive RawOrigin
  | acc (group : List PyStr)
  | piece (t : PyStr)
deriving DecidableEq

/-- Ghost flush, mirroring `flushChunk`. -/
def flushG (pending : List PyStr) : List RawOrigin :=
  if pending.isEmpty then [] else [RawOrigin.acc pending]

/-- Ghost variant of `assembleLoop` returning the origin of every raw
chunk, branch for branch. -/
def assembleLoopG (maxT : Nat) (pending : List PyStr) (pendingTokens : Nat) :
    List Block → List RawOrigin
  | [] => flushG pending
  | b :: rest =>
    let blockTokens := estimate_tokens b.text
    if blockTokens > maxT then
      flushG pending
        ++ (split_at_paragraphs b.text maxT).map RawOrigin.piece
        ++ assembleLoopG maxT [] 0 rest
    else if pendingTokens + blockTokens > maxT then
      flushG pending ++ assembleLoopG maxT [b.text] blockTokens rest
    else
      assembleLoopG maxT (pending ++ [b.text]) (pendingTokens + blockTokens) rest

/-- The chunk an origin denotes. -/
def originChunk (meta : ChapterMeta) (hdr : PyStr) : RawOrigin → Chunk
  | RawOrigin.acc g => make_chunk (List.intercalate nl2 g) meta hdr
  | RawOrigin.piece t => make_chunk t meta hdr

/-! ### Shared concrete inputs -/

/-- An all-default metadata record (the metadata is opaque pass-through). -/
def metaNone : ChapterMeta := {}

/-! ### Supporting lemmas -/

/-- The token estimate is monotone in text length. -/
theorem estimate_tokens_le_of_length_le {s t : PyStr}
    (h : s.length ≤ t.length) : estimate_tokens s ≤ estimate_tokens t :=
  Nat.div_le_div_right (Nat.mul_le_mul_left 2 h)

/-- The part list built by `partsLoop` always begins with a segment. -/
theorem partsLoop_starts_seg (lines : List PyStr) :
    ∀ curSeg, ∃ s tail, partsLoop curSeg lines = SplitPart.seg s :: tail := by
  induction lines with
  | nil => intro curSeg; exact ⟨_, _, rfl⟩
  | cons l rest ih =>
    intro curSeg
    by_cases h : (headerInfo l).isSome
    · exact ⟨List.intercalate ['\n'] curSeg.reverse,
        SplitPart.hdr l :: partsLoop [] rest, by simp [partsLoop, h]⟩
    · simpa [partsLoop, h] using ih (l :: curSeg)

/-- Once the body accumulator is non-empty and no header has been seen,
the first section emitted by the loop is the preamble (`header = none`,
`level = 0`). -/
theorem sectionsLoop_first_none (parts : List SplitPart) :
    ∀ curBody : List PyStr, curBody ≠ [] →
      ∃ body rest, sectionsLoop none 0 curBody parts =
        { header := none, level := 0, body := body } :: rest := by
  induction parts with
  | nil =>
    intro curBody h
    exact ⟨pyStrip (List.intercalate ['\n'] curBody), [],
      by simp [sectionsLoop, h]⟩
  | cons p rest ih =>
    intro curBody h
    cases p with
    | seg s => simpa [sectionsLoop] using ih (curBody ++ [s]) (by simp)
    | hdr line =>
      rcases h' : headerInfo line with _ | ⟨lvl, htext⟩
      · refine ⟨pyStrip (List.intercalate ['\n'] curBody),
          sectionsLoop none 0 [] rest, ?_⟩
        simp [sectionsLoop, h, h']
      · refine ⟨pyStrip (List.intercalate ['\n'] curBody),
          sectionsLoop (some htext) lvl [] rest, ?_⟩
        simp [sectionsLoop, h, h']

/-! ### Claim theorems -/

/-- Claim C8 (confirmed): for every string `t`, `estimate_tokens t` equals
`⌊2 len(t) / 7⌋` (the exact value of `int(len(t) / 3.5)`, a non-negative
integer), and the estimate is monotone non-decreasing in the length. -/
theorem estimate_tokens_floor_mono :
    ∀ t : PyStr, estimate_tokens t = 2 * t.length / 7 ∧
      ∀ t' : PyStr, t.length ≤ t'.length →
        estimate_tokens t ≤ estimate_tokens t' := by
  intro t
  exact ⟨rfl, fun t' h => estimate_tokens_le_of_length_le h⟩

/-- Witness for C8 at concrete strings. -/
theorem estimate_tokens_floor_mono_witness :
    estimate_tokens (("abc").data) ≤ estimate_tokens (("abcdefg").data) :=
  (estimate_tokens_floor_mono (("abc").data)).2 (("abcdefg").data) (by decide)

/-- Claim C7 counterexample: for an input that begins directly with a
level-2 header line, `parse_sections` emits an empty-bodied preamble
section (header = none, level = 0) before the header's section, because
`re.split` always yields a leading (empty) segment which makes the
accumulated body list non-empty. -/
theorem parse_sections_empty_preamble_cex :
    parse_sections (("## A\nbody").data) =
      [{ header := none, level := 0, body := [] },
       { header := some (("A").data), level := 2, body := ("body").data }] := by
  decide

/-- Claim C7 (amended): `parse_sections` always emits the preamble section
first: for every input, the first emitted section has `header = none` and
`level = 0` — also when no body text precedes the first header, in which
case its body is the empty string. -/
theorem parse_sections_always_preamble :
    ∀ text : PyStr, ∃ body rest,
      parse_sections text =
        { header := none, level := 0, body := body } :: rest := by
  intro text
  unfold parse_sections toParts
  obtain ⟨s, tail, hp⟩ := partsLoop_starts_seg (text.splitOn '\n') []
  rw [hp]
  simpa [sectionsLoop] using sectionsLoop_first_none tail [s] (by simp)

/-- Claim C6 (code bug): on a non-blank, marker-free section body the
trailing-prose branch (src/chunk.py:414-417) and the no-marker branch
(src/chunk.py:419-422) both append the stripped body, so every
non-whitespace character appears twice in the segmented blocks instead of
exactly once. -/
theorem split_into_blocks_no_marker_duplication :
    split_into_blocks (("hello").data) =
      [{ type := .prose, label := none, text := ("hello").data },
       { type := .prose, label := none, text := ("hello").data }] := by
  decide

/-- Claim C9 (code bug): for a chapter body that is a single 50-character
paragraph with budgets 512/1536, the marker-free section body is segmented
into two identical prose blocks (claim C6 bug), the assembler packs both
into one chunk of 29 estimated tokens (not 14), the 20-token floor filter
keeps it, and the final output is one chunk instead of being empty. -/
theorem chunk_chapter_small_paragraph_kept :
    (raw_chunks (List.replicate 50 'a') metaNone 1536).map (fun c => c.tokens_est)
        = [29]
      ∧ (split_into_blocks (List.replicate 50 'a')).map (fun b => b.text)
        = [List.replicate 50 'a', List.replicate 50 'a']
      ∧ (chunk_chapter_body (List.replicate 50 'a') metaNone 512 1536).map
          (fun c => (c.tokens_est, c.chunk_id)) = [(29, 0)] := by
  refine ⟨by decide, by decide, by decide⟩

/-- Unfolding of `intercalate` over a two-or-more-element list. -/
theorem intercalate_cons_cons (x y : PyStr) (l : List PyStr) :
    List.intercalate nl2 (x :: y :: l) = x ++ nl2 ++ List.intercalate nl2 (y :: l) := by
  simp [List.intercalate, List.intersperse]

/-- `intercalate` over a singleton. -/
theorem intercalate_singleton (x : PyStr) : List.intercalate nl2 [x] = x := by
  simp [List.intercalate]

/-- `intercalate` distributes over append of non-empty lists. -/
theorem intercalate_append_of_ne_nil :
    ∀ (a b : List PyStr), a ≠ [] → b ≠ [] →
      List.intercalate nl2 (a ++ b) =
        List.intercalate nl2 a ++ nl2 ++ List.intercalate nl2 b := by
  intro a
  induction a with
  | nil => intro b h _; exact absurd rfl h
  | cons x a' ih =>
    intro b _ hb
    cases a' with
    | nil =>
      cases b with
      | nil => exact absurd rfl hb
      | cons y ys => simp [intercalate_cons_cons, intercalate_singleton]
    | cons z a'' =>
      calc List.intercalate nl2 ((x :: z :: a'') ++ b)
          = x ++ nl2 ++ List.intercalate nl2 ((z :: a'') ++ b) := by
            simpa using intercalate_cons_cons x z (a'' ++ b)
        _ = x ++ nl2 ++ (List.intercalate nl2 (z :: a'') ++ nl2
              ++ List.intercalate nl2 b) := by
            rw [ih b (by simp) hb]
        _ = List.intercalate nl2 (x :: z :: a'') ++ nl2
              ++ List.intercalate nl2 b := by
            rw [intercalate_cons_cons]; simp [List.append_assoc]

/-- Joining the per-group joins with the separator equals joining the
concatenated paragraph list (groups must be non-empty). -/
theorem intercalate_map_flatten :
    ∀ G : List (List PyStr), (∀ g ∈ G, g ≠ []) →
      List.intercalate nl2 (G.map (List.intercalate nl2)) =
        List.intercalate nl2 G.flatten := by
  intro G
  induction G with
  | nil => intro _; simp [List.intercalate]
  | cons g G' ih =>
    intro h
    cases G' with
    | nil => simp [intercalate_singleton]
    | cons g' G'' =>
      have hg : g ≠ [] := h g (by simp)
      have hflat : (List.flatten (g' :: G'')) ≠ [] := by
        have : g' ≠ [] := h g' (by simp)
        cases g' with
        | nil => exact absurd rfl this
        | cons a as => simp
      calc List.intercalate nl2 ((g :: g' :: G'').map (List.intercalate nl2))
          = List.intercalate nl2 g ++ nl2
              ++ List.intercalate nl2 ((g' :: G'').map (List.intercalate nl2)) := by
            simp only [List.map_cons]
            exact intercalate_cons_cons _ _ _
        _ = List.intercalate nl2 g ++ nl2
              ++ List.intercalate nl2 (List.flatten (g' :: G'')) := by
            rw [ih (fun x hx => h x (by simp [hx]))]
        _ = List.intercalate nl2 (List.flatten (g :: g' :: G'')) := by
          have hap := intercalate_append_of_ne_nil g (List.flatten (g' :: G'')) hg hflat
          simp only [List.flatten_cons] at hap ⊢
          rw [hap]

/-- The pieces of `splitLoop` are the blank-line joins of the groups of
`splitLoopG`. -/
theorem splitLoop_eq_G (maxT : Nat) :
    ∀ (paras : List PyStr) (current : List PyStr) (cl : Nat),
      splitLoop maxT current cl paras =
        (splitLoopG maxT current cl paras).map (List.intercalate nl2) := by
  intro paras
  induction paras with
  | nil =>
    intro current cl
    by_cases h : current.isEmpty <;> simp [splitLoop, splitLoopG, h]
  | cons para rest ih =>
    intro current cl
    by_cases h : maxT < cl + estimate_tokens para ∧ ¬current = []
    · simp [splitLoop, splitLoopG, h, ih]
    · simp [splitLoop, splitLoopG, h, ih]

/-- The groups of `splitLoopG` concatenate to the pending group followed by
the remaining paragraphs: the greedy packing loses and reorders nothing. -/
theorem splitLoopG_flatten (maxT : Nat) :
    ∀ (paras : List PyStr) (current : List PyStr) (cl : Nat),
      (splitLoopG maxT current cl paras).flatten = current ++ paras := by
  intro paras
  induction paras with
  | nil =>
    intro current cl
    rcases current with _ | ⟨c, cs⟩ <;> simp [splitLoopG]
  | cons para rest ih =>
    intro current cl
    by_cases h : maxT < cl + estimate_tokens para ∧ ¬current = []
    · simp [splitLoopG, h, ih]
    · simp [splitLoopG, h, ih]

/-- Every group emitted by `splitLoopG` is non-empty. -/
theorem splitLoopG_ne_nil (maxT : Nat) :
    ∀ (paras : List PyStr) (current : List PyStr) (cl : Nat) (g : List PyStr),
      g ∈ splitLoopG maxT current cl paras → g ≠ [] := by
  intro paras
  induction paras with
  | nil =>
    intro current cl g hg
    rcases current with _ | ⟨c, cs⟩
    · simp [splitLoopG] at hg
    · simp [splitLoopG] at hg
      simp [hg]
  | cons para rest ih =>
    intro current cl g hg
    by_cases h : maxT < cl + estimate_tokens para ∧ ¬current = []
    · simp [splitLoopG, h] at hg
      rcases hg with hg | hg
      · rcases current with _ | ⟨c, cs⟩
        · simp at h
        · simp [hg]
      · exact ih [para] (estimate_tokens para) g hg
    · simp [splitLoopG, h] at hg
      exact ih (current ++ [para]) (cl + estimate_tokens para) g hg

/-- Size invariant of the greedy loop: every emitted group is a singleton
paragraph or has token-estimate sum within budget. -/
theorem splitLoopG_sum (maxT : Nat) :
    ∀ (paras : List PyStr) (current : List PyStr) (cl : Nat),
      cl = (current.map estimate_tokens).sum →
      ((∃ p, current = [p]) ∨ cl ≤ maxT) →
      ∀ g ∈ splitLoopG maxT current cl paras,
        (∃ p, g = [p]) ∨ (g.map estimate_tokens).sum ≤ maxT := by
  intro paras
  induction paras with
  | nil =>
    intro current cl hsum hinv g hg
    rcases current with _ | ⟨c, cs⟩
    · simp [splitLoopG] at hg
    · simp [splitLoopG] at hg
      subst hg
      rcases hinv with h | h
      · exact Or.inl h
      · exact Or.inr (hsum ▸ h)
  | cons para rest ih =>
    intro current cl hsum hinv g hg
    by_cases h : maxT < cl + estimate_tokens para ∧ ¬current = []
    · simp [splitLoopG, h] at hg
      rcases hg with hg | hg
      · subst hg
        rcases hinv with h' | h'
        · exact Or.inl h'
        · exact Or.inr (hsum ▸ h')
      · exact ih [para] (estimate_tokens para) (by simp) (Or.inl ⟨para, rfl⟩) g hg
    · simp [splitLoopG, h] at hg
      rcases not_and_or.mp h with h' | h'
      · exact ih (current ++ [para]) (cl + estimate_tokens para)
          (by simp [hsum]) (Or.inr (Nat.le_of_not_lt h')) g hg
      · have hcur : current = [] := not_not.mp h'
        subst hcur
        exact ih [para] (cl + estimate_tokens para)
          (by simp at hsum; simp [hsum]) (Or.inl ⟨para, by simp⟩) g
          (by simpa using hg)

/-- `noTriple` is preserved by dropping the head. -/
theorem noTriple_tail {c : Char} {l : PyStr} (h : noTriple (c :: l) = true) :
    noTriple l = true := by
  cases l with
  | nil => rfl
  | cons d l' =>
    cases l' with
    | nil => rfl
    | cons e l'' =>
      simp [noTriple] at h
      exact h.2

/-- After a double newline, a triple-free text cannot continue with a
third newline. -/
theorem noTriple_no_third {rest : PyStr}
    (h : noTriple ('\n' :: '\n' :: rest) = true) : rest.head? ≠ some '\n' := by
  cases rest with
  | nil => simp
  | cons r rs =>
    intro hr
    simp only [List.head?_cons, Option.some.injEq] at hr
    subst hr
    simp [noTriple] at h

/-- The paragraph splitter never returns an empty list of paragraphs. -/
theorem splitParasAux_ne_nil : ∀ (cs acc : PyStr), splitParasAux acc cs ≠ [] := by
  intro cs
  induction cs with
  | nil => intro acc; simp [splitParasAux]
  | cons c rest ih =>
    intro acc
    by_cases hc : c = '\n' ∧ rest.head? = some '\n'
    · simp [splitParasAux, hc]
    · simpa [splitParasAux, hc] using ih (c :: acc)

/-- Rejoining the paragraphs of a triple-newline-free text with a blank
line reconstructs the text (every separator consumed was exactly two
newlines). -/
theorem splitParasAux_reconstruct :
    ∀ (n : Nat) (cs : PyStr), cs.length ≤ n → ∀ acc : PyStr,
      noTriple cs = true →
      List.intercalate nl2 (splitParasAux acc cs) = acc.reverse ++ cs := by
  intro n
  induction n with
  | zero =>
    intro cs hlen acc _
    have hnil : cs = [] := List.length_eq_zero.mp (Nat.le_zero.mp hlen)
    subst hnil
    simp [splitParasAux, intercalate_singleton]
  | succ n ih =>
    intro cs hlen acc hnt
    cases cs with
    | nil => simp [splitParasAux, intercalate_singleton]
    | cons c rest =>
      by_cases hc : c = '\n' ∧ rest.head? = some '\n'
      · obtain ⟨hc1, hc2⟩ := hc
        subst hc1
        cases rest with
        | nil => simp at hc2
        | cons r rest2 =>
          simp only [List.head?_cons, Option.some.injEq] at hc2
          subst hc2
          have hnothird := noTriple_no_third hnt
          have hnt2 : noTriple rest2 = true := noTriple_tail (noTriple_tail hnt)
          cases rest2 with
          | nil =>
            have hstep : splitParasAux acc ['\n', '\n']
                = acc.reverse :: [([] : PyStr)] := by
              simp [splitParasAux, splitParasSkip]
            rw [hstep, intercalate_cons_cons, intercalate_singleton]
            simp [nl2]
          | cons r2 rs2 =>
            have hr2 : ¬r2 = '\n' := fun h => hnothird (by simp [h])
            have hrec := ih rs2 (by simp at hlen ⊢; omega) [r2] (noTriple_tail hnt2)
            have hstep : splitParasAux acc ('\n' :: '\n' :: r2 :: rs2)
                = acc.reverse :: splitParasAux [r2] rs2 := by
              simp [splitParasAux, splitParasSkip, hr2]
            rw [hstep]
            obtain ⟨x, xs, hL⟩ : ∃ x xs, splitParasAux [r2] rs2 = x :: xs := by
              rcases hLcase : splitParasAux [r2] rs2 with _ | ⟨x, xs⟩
              · exact absurd hLcase (splitParasAux_ne_nil rs2 [r2])
              · exact ⟨x, xs, rfl⟩
            rw [hL, intercalate_cons_cons, ← hL, hrec]
            simp [nl2]
      · have hstep : splitParasAux acc (c :: rest) = splitParasAux (c :: acc) rest := by
          simp [splitParasAux, hc]
        rw [hstep, ih rest (by simp at hlen ⊢; omega) (c :: acc) (noTriple_tail hnt)]
        simp

/-- Top-level form of the reconstruction lemma. -/
theorem splitParas_reconstruct (cs : PyStr) (h : noTriple cs = true) :
    List.intercalate nl2 (splitParas cs) = cs := by
  simpa using splitParasAux_reconstruct cs.length cs le_rfl [] h

/-- The pieces of `split_at_paragraphs` are exactly the blank-line joins of
its paragraph groups. -/
theorem split_at_paragraphs_eq_groups (text : PyStr) (maxT : Nat) :
    split_at_paragraphs text maxT
      = (splitGroups text maxT).map (List.intercalate nl2) := by
  unfold split_at_paragraphs splitGroups
  by_cases h : estimate_tokens text ≤ maxT
  · simp [h, intercalate_singleton]
  · simp [h, splitLoop_eq_G]

/-- Claim C4 (amended): every piece of `split_at_paragraphs` is the
blank-line join of a group of consecutive paragraphs, and every group is a
single paragraph (emitted unchanged, oversized only if that paragraph is
oversized) or a group whose paragraph token estimates sum to at most
`max_tokens`; the joined piece's own recomputed estimate can exceed
`max_tokens` because of the inserted blank lines and floor rounding. -/
theorem split_at_paragraphs_budget :
    ∀ (text : PyStr) (maxT : Nat),
      split_at_paragraphs text maxT
          = (splitGroups text maxT).map (List.intercalate nl2)
        ∧ ∀ g ∈ splitGroups text maxT,
            (∃ p, g = [p]) ∨ (g.map estimate_tokens).sum ≤ maxT := by
  intro text maxT
  refine ⟨split_at_paragraphs_eq_groups text maxT, ?_⟩
  intro g hg
  unfold splitGroups at hg
  by_cases h : estimate_tokens text ≤ maxT
  · simp [h] at hg
    exact Or.inl ⟨text, hg⟩
  · simp [h] at hg
    exact splitLoopG_sum maxT (splitParas text) [] 0 (by simp)
      (Or.inr (Nat.zero_le _)) g hg

/-- Witness for the amended C4 at a concrete input: the first group packed
from three 8-character paragraphs under budget 4 satisfies the sum bound. -/
theorem split_at_paragraphs_budget_witness :
    (∃ p, [("aaaaaaaa").data, ("aaaaaaaa").data] = [p])
      ∨ (([("aaaaaaaa").data, ("aaaaaaaa").data]).map estimate_tokens).sum ≤ 4 :=
  (split_at_paragraphs_budget (("aaaaaaaa\n\naaaaaaaa\n\naaaaaaaa").data) 4).2
    [("aaaaaaaa").data, ("aaaaaaaa").data] (by decide)

/-- Claim C4 counterexample: with budget 4, a text of three 8-character
paragraphs (each estimating 2 ≤ 4 tokens, so no single paragraph is
oversized) yields a first piece estimating 5 > 4 tokens: the pieces are
not all within budget even though no oversized-paragraph exception
applies. -/
theorem split_at_paragraphs_piece_over_budget_cex :
    (split_at_paragraphs (("aaaaaaaa\n\naaaaaaaa\n\naaaaaaaa").data) 4).map
        estimate_tokens = [5, 2]
      ∧ (splitParas (("aaaaaaaa\n\naaaaaaaa\n\naaaaaaaa").data)).all
        (fun p => decide (estimate_tokens p ≤ 4)) = true := by
  exact ⟨by decide, by decide⟩

/-- Claim C5 (amended): the greedy packing loses and reorders no
paragraphs — the groups flatten back to the paragraph list (or to the
unsplit text when it is within budget) — and joining all pieces with a
blank line reconstructs the input exactly whenever the input has no run of
three or more consecutive newlines; a longer run comes back as exactly two
newlines because `re.split(r'\n\n+', ...)` discards the run length. -/
theorem split_at_paragraphs_reconstruction :
    ∀ (text : PyStr) (maxT : Nat),
      (splitGroups text maxT).flatten
          = (if estimate_tokens text ≤ maxT then [text] else splitParas text)
        ∧ (noTriple text = true →
            List.intercalate nl2 (split_at_paragraphs text maxT) = text) := by
  intro text maxT
  constructor
  · unfold splitGroups
    by_cases h : estimate_tokens text ≤ maxT
    · simp [h]
    · simp [h, splitLoopG_flatten]
  · intro hnt
    rw [split_at_paragraphs_eq_groups]
    unfold splitGroups
    by_cases h : estimate_tokens text ≤ maxT
    · simp [h, intercalate_singleton]
    · rw [if_neg h,
        intercalate_map_flatten _ (fun g hg => splitLoopG_ne_nil maxT (splitParas text) [] 0 g hg),
        splitLoopG_flatten]
      simpa using splitParas_reconstruct text hnt

/-- Witness for the amended C5 at a concrete input with no triple newline. -/
theorem split_at_paragraphs_reconstruction_witness :
    List.intercalate nl2 (split_at_paragraphs (("aaaaaaaa\n\naaaa").data) 2)
      = ("aaaaaaaa\n\naaaa").data :=
  (split_at_paragraphs_reconstruction (("aaaaaaaa\n\naaaa").data) 2).2 (by decide)

/-- Claim C5 counterexample: a text with a three-newline separator and
estimate above budget is split and rejoined with only two newlines, so the
blank-line concatenation of the pieces differs from the input. -/
theorem split_at_paragraphs_collapse_cex :
    split_at_paragraphs (("aaaaaaaa\n\n\nbbbb").data) 2
        = [("aaaaaaaa").data, ("bbbb").data]
      ∧ List.intercalate nl2 (split_at_paragraphs (("aaaaaaaa\n\n\nbbbb").data) 2)
        ≠ ("aaaaaaaa\n\n\nbbbb").data :=
  ⟨by decide, by decide⟩

/-- A successful merge condition contains `can_merge`: the accumulator's
current estimate plus the incoming chunk's estimate is within budget. -/
theorem mergeCond_can_merge {minT maxT : Nat} {prev c : Chunk}
    (h : mergeCond minT maxT prev c = true) :
    prev.tokens_est + c.tokens_est ≤ maxT := by
  simp [mergeCond] at h
  exact h.1

/-- Every merge recorded by the event loop satisfied `can_merge` at merge
time. -/
theorem mergeLoopEv_sum (minT maxT : Nat) :
    ∀ (rest : List Chunk) (prev p c : Chunk),
      (p, c) ∈ mergeLoopEv minT maxT prev rest →
      p.tokens_est + c.tokens_est ≤ maxT := by
  intro rest
  induction rest with
  | nil => intro prev p c h; simp [mergeLoopEv] at h
  | cons c0 rest ih =>
    intro prev p c h
    by_cases hc : mergeCond minT maxT prev c0 = true
    · simp [mergeLoopEv, hc] at h
      rcases h with ⟨hp, hc0⟩ | h
      · subst hp; subst hc0; exact mergeCond_can_merge hc
      · exact ih _ p c h
    · simp [mergeLoopEv, hc] at h
      exact ih _ p c h

/-- Each recorded merge consumed exactly one chunk of the input. -/
theorem mergeLoop_length (minT maxT : Nat) :
    ∀ (rest : List Chunk) (prev : Chunk),
      (mergeLoop minT maxT prev rest).length
        + (mergeLoopEv minT maxT prev rest).length = rest.length + 1 := by
  intro rest
  induction rest with
  | nil => intro prev; simp [mergeLoop, mergeLoopEv]
  | cons c rest ih =>
    intro prev
    by_cases hc : mergeCond minT maxT prev c = true
    · simp only [mergeLoop, mergeLoopEv, hc, if_true, List.length_cons]
      have := ih (mergedChunk prev c)
      omega
    · simp only [mergeLoop, mergeLoopEv, hc, if_false, Bool.false_eq_true,
        List.length_cons]
      have := ih c
      omega

/-- The incoming chunk of every merge event is an element of the input
tail. -/
theorem mergeLoopEv_snd_mem (minT maxT : Nat) :
    ∀ (rest : List Chunk) (prev p c : Chunk),
      (p, c) ∈ mergeLoopEv minT maxT prev rest → c ∈ rest := by
  intro rest
  induction rest with
  | nil => intro prev p c h; simp [mergeLoopEv] at h
  | cons c0 rest ih =>
    intro prev p c h
    by_cases hc : mergeCond minT maxT prev c0 = true
    · simp [mergeLoopEv, hc] at h
      rcases h with ⟨_, hc0⟩ | h
      · simp [hc0]
      · exact List.mem_cons_of_mem _ (ih _ p c h)
    · simp [mergeLoopEv, hc] at h
      exact List.mem_cons_of_mem _ (ih _ p c h)

/-- Claim C2 (confirmed): every merge actually performed by
`merge_small_chunks` satisfied `prev.tokens_est + chunk.tokens_est ≤
max_tokens` at merge time (the `can_merge` gate also guards the forced
cross-section merge), and each event accounts for exactly one consumed
chunk. -/
theorem merge_never_exceeds :
    ∀ (chunks : List Chunk) (minT maxT : Nat),
      (∀ p c : Chunk, (p, c) ∈ mergeEvents chunks minT maxT →
          p.tokens_est + c.tokens_est ≤ maxT)
        ∧ (merge_small_chunks chunks minT maxT).length
            + (mergeEvents chunks minT maxT).length = chunks.length := by
  intro chunks minT maxT
  by_cases h : chunks.length ≤ 1
  · constructor
    · intro p c hm
      simp [mergeEvents, h] at hm
    · simp [merge_small_chunks, mergeEvents, h]
  · rcases chunks with _ | ⟨c0, rest⟩
    · simp at h
    · constructor
      · intro p c hm
        simp [mergeEvents, h] at hm
        exact mergeLoopEv_sum minT maxT rest c0 p c hm.2
      · simp only [merge_small_chunks, mergeEvents, h, if_false]
        have := mergeLoop_length minT maxT rest c0
        simp only [List.length_cons]
        omega

/-- A 2-token chunk in section S. -/
def chunkS1 : Chunk := make_chunk (List.replicate 7 'c') metaNone (("S").data)

/-- Another 2-token chunk in section S. -/
def chunkS2 : Chunk := make_chunk (List.replicate 7 'd') metaNone (("S").data)

/-- Witness for C2: the single merge performed on two tiny same-section
chunks with budgets 8/100 satisfies the bound. -/
theorem merge_never_exceeds_witness :
    Chunk.tokens_est chunkS1 + Chunk.tokens_est chunkS2 ≤ 100 :=
  (merge_never_exceeds [chunkS1, chunkS2] 8 100).1 chunkS1 chunkS2 (by decide)

/-- A 2-token chunk in section A. -/
def chunkA : Chunk := make_chunk (List.replicate 7 'a') metaNone (("A").data)

/-- A 6-token chunk in section B. -/
def chunkB : Chunk := make_chunk (List.replicate 21 'b') metaNone (("B").data)

/-- Claim C3 counterexample: with budgets 8/100 the tiny accumulator
`chunkA` (2 tokens, section A) force-merges the larger `chunkB` (6 tokens,
section B).  The incoming chunk's original estimate exceeds the
accumulator's pre-merge estimate, so by the claim the surviving section
label should be overwritten to B; the code keeps A, because the comparison
at src/chunk.py:525 uses the already-recomputed post-merge estimate, which
is never smaller than the incoming chunk's estimate. -/
theorem merge_section_overwrite_cex :
    chunkB.tokens_est > chunkA.tokens_est
      ∧ mergeEvents [chunkA, chunkB] 8 100 = [(chunkA, chunkB)]
      ∧ (merge_small_chunks [chunkA, chunkB] 8 100).map (fun c => c.sectionLabel)
        = [("A").data] :=
  ⟨by decide, by decide, by decide⟩

/-- When the incoming chunk's stored estimate matches its text, the
post-merge recomputed estimate is at least the incoming estimate, so the
overwrite branch of src/chunk.py:525-526 never fires. -/
theorem mergedChunk_keeps_section {p c : Chunk}
    (hc : c.tokens_est = estimate_tokens c.text) :
    (mergedChunk p c).sectionLabel = p.sectionLabel := by
  have hnot : ¬ estimate_tokens (p.text ++ (nl2 ++ c.text)) < c.tokens_est := by
    rw [hc]
    have hle : estimate_tokens c.text
        ≤ estimate_tokens (p.text ++ (nl2 ++ c.text)) :=
      estimate_tokens_le_of_length_le (by simp only [List.length_append]; omega)
    omega
  simp [mergedChunk, hnot]

/-- Under the stored-estimate consistency invariant, every surviving chunk
keeps the section label of the chunk that started its accumulator, so the
output labels form a sublist of the input labels. -/
theorem mergeLoop_sections (minT maxT : Nat) :
    ∀ (rest : List Chunk) (prev : Chunk),
      (∀ c ∈ rest, c.tokens_est = estimate_tokens c.text) →
      ((mergeLoop minT maxT prev rest).map (fun c => c.sectionLabel)).Sublist
        (prev.sectionLabel :: rest.map (fun c => c.sectionLabel)) := by
  intro rest
  induction rest with
  | nil => intro prev _; simp [mergeLoop]
  | cons c rest ih =>
    intro prev hcons
    by_cases hc : mergeCond minT maxT prev c = true
    · simp only [mergeLoop, hc, if_true]
      have hkeep : (mergedChunk prev c).sectionLabel = prev.sectionLabel :=
        mergedChunk_keeps_section (hcons c (by simp))
      have hsub := ih (mergedChunk prev c) (fun x hx => hcons x (by simp [hx]))
      rw [hkeep] at hsub
      exact hsub.trans ((List.sublist_cons_self _ _).cons₂ _)
    · simp only [mergeLoop, hc, if_false, Bool.false_eq_true, List.map_cons]
      exact (ih c (fun x hx => hcons x (by simp [hx]))).cons₂ _

/-- Claim C3 (amended): the overwrite compares the incoming chunk's stored
estimate with the accumulator's recomputed post-merge estimate; since for
consistently-sized inputs (as produced by `make_chunk`) the post-merge
estimate is never smaller, the surviving chunk's section label is never
overwritten — every merge keeps the accumulator's label and the output
labels form a sublist of the input labels. -/
theorem merge_section_kept :
    ∀ (chunks : List Chunk) (minT maxT : Nat),
      (∀ c ∈ chunks, c.tokens_est = estimate_tokens c.text) →
      (∀ p c : Chunk, (p, c) ∈ mergeEvents chunks minT maxT →
          (mergedChunk p c).sectionLabel = p.sectionLabel)
        ∧ ((merge_small_chunks chunks minT maxT).map
              (fun c => c.sectionLabel)).Sublist
            (chunks.map (fun c => c.sectionLabel)) := by
  intro chunks minT maxT hcons
  by_cases h : chunks.length ≤ 1
  · constructor
    · intro p c hm
      simp [mergeEvents, h] at hm
    · simp [merge_small_chunks, h]
  · rcases chunks with _ | ⟨c0, rest⟩
    · simp at h
    · constructor
      · intro p c hm
        simp [mergeEvents, h] at hm
        exact mergedChunk_keeps_section
          (hcons c (List.mem_cons_of_mem _
            (mergeLoopEv_snd_mem minT maxT rest c0 p c hm.2)))
      · simp only [merge_small_chunks, h, if_false, List.map_cons]
        exact mergeLoop_sections minT maxT rest c0
          (fun x hx => hcons x (by simp [hx]))

/-- Witness for the amended C3 at the concrete forced merge of `chunkA`
and `chunkB`. -/
theorem merge_section_kept_witness :
    (mergedChunk chunkA chunkB).sectionLabel = chunkA.sectionLabel :=
  (merge_section_kept [chunkA, chunkB] 8 100 (by decide)).1 chunkA chunkB
    (by decide)

/-- `flushChunk` is the chunk image of the ghost flush. -/
theorem flushChunk_eq (meta : ChapterMeta) (hdr : PyStr) (pending : List PyStr) :
    flushChunk meta hdr pending = (flushG pending).map (originChunk meta hdr) := by
  by_cases h : pending.isEmpty <;> simp [flushChunk, flushG, h, originChunk]

/-- The assembler produces exactly the chunks denoted by the ghost origin
list. -/
theorem assembleLoop_eq_G (maxT : Nat) (meta : ChapterMeta) (hdr : PyStr) :
    ∀ (blocks : List Block) (pending : List PyStr) (pt : Nat),
      assembleLoop maxT meta hdr pending pt blocks
        = (assembleLoopG maxT pending pt blocks).map (originChunk meta hdr) := by
  intro blocks
  induction blocks with
  | nil => intro pending pt; simp [assembleLoop, assembleLoopG, flushChunk_eq]
  | cons b rest ih =>
    intro pending pt
    by_cases h1 : maxT < estimate_tokens b.text
    · simp [assembleLoop, assembleLoopG, h1, flushChunk_eq, ih,
        List.map_map, originChunk, Function.comp_def]
    · by_cases h2 : maxT < pt + estimate_tokens b.text
      · simp [assembleLoop, assembleLoopG, h1, h2, flushChunk_eq, ih]
      · simp [assembleLoop, assembleLoopG, h1, h2, ih]

/-- A ghost flush only emits the pending group itself. -/
theorem flushG_acc_mem {pending g : List PyStr}
    (h : RawOrigin.acc g ∈ flushG pending) : g = pending := by
  by_cases hp : pending.isEmpty
  · simp [flushG, hp] at h
  · simp [flushG, hp] at h
    exact h

/-- Size invariant carried by the pending accumulator: the tracked running
sum equals the sum of the pending block estimates and stays within budget,
so every flushed accumulator group has estimate sum at most the budget. -/
theorem assembleLoopG_acc_sum (maxT : Nat) :
    ∀ (blocks : List Block) (pending : List PyStr) (pt : Nat),
      pt = (pending.map estimate_tokens).sum → pt ≤ maxT →
      ∀ g : List PyStr, RawOrigin.acc g ∈ assembleLoopG maxT pending pt blocks →
        (g.map estimate_tokens).sum ≤ maxT := by
  intro blocks
  induction blocks with
  | nil =>
    intro pending pt hsum hle g hg
    simp only [assembleLoopG] at hg
    have hgp := flushG_acc_mem hg
    subst hgp
    exact hsum ▸ hle
  | cons b rest ih =>
    intro pending pt hsum hle g hg
    by_cases h1 : maxT < estimate_tokens b.text
    · simp only [assembleLoopG, h1, if_true] at hg
      rcases List.mem_append.mp hg with hg | hg
      · rcases List.mem_append.mp hg with hg | hg
        · have hgp := flushG_acc_mem hg
          subst hgp
          exact hsum ▸ hle
        · rcases List.mem_map.mp hg with ⟨p, _, hp⟩
          exact absurd hp (by simp)
      · exact ih [] 0 (by simp) (Nat.zero_le _) g hg
    · by_cases h2 : maxT < pt + estimate_tokens b.text
      · simp only [assembleLoopG, h1, h2, if_true, if_false] at hg
        rcases List.mem_append.mp hg with hg | hg
        · have hgp := flushG_acc_mem hg
          subst hgp
          exact hsum ▸ hle
        · exact ih [b.text] (estimate_tokens b.text) (by simp)
            (Nat.le_of_not_lt h1) g hg
      · simp only [assembleLoopG, h1, h2, if_false] at hg
        exact ih (pending ++ [b.text]) (pt + estimate_tokens b.text)
          (by simp [hsum]) (Nat.le_of_not_lt h2) g hg

/-- Claim C1 (amended): every raw chunk is either a paragraph-splitter
piece from an oversized block or the blank-line join of a flushed
accumulator group, and every flushed accumulator group's block estimates
SUM to at most `max_tokens`.  The flushed chunk's own recomputed
`tokens_est` can exceed `max_tokens`, because the blank-line separators
and the floor rounding make the joined text's estimate larger than the sum
the accumulator tracked. -/
theorem assembler_budget :
    ∀ (maxT : Nat) (meta : ChapterMeta) (hdr : PyStr) (blocks : List Block),
      assembleLoop maxT meta hdr [] 0 blocks
          = (assembleLoopG maxT [] 0 blocks).map (originChunk meta hdr)
        ∧ ∀ g : List PyStr, RawOrigin.acc g ∈ assembleLoopG maxT [] 0 blocks →
            (g.map estimate_tokens).sum ≤ maxT := by
  intro maxT meta hdr blocks
  exact ⟨assembleLoop_eq_G maxT meta hdr blocks [] 0,
    fun g hg => assembleLoopG_acc_sum maxT blocks [] 0 (by simp)
      (Nat.zero_le _) g hg⟩

/-- The section body used in the C1 counterexample: three proof markers. -/
def proofTriple : PyStr := ("*Proof.*\n*Proof.*\n*Proof.*").data

/-- A proof block of the C1 counterexample (8 characters, 2 tokens). -/
def proofBlock : Block :=
  { type := .proofKind, label := some (("Proof").data), text := ("*Proof.*").data }

/-- Claim C1 counterexample: with budget 4, the body `proofTriple`
segments into three 2-token proof blocks (none oversized, so the
paragraph-splitter exception never applies); the accumulator packs two of
them and the flushed chunk's recomputed estimate is 5 > 4.  A raw chunk
flushed from the multi-block accumulator exceeds `max_tokens`. -/
theorem assembler_over_budget_cex :
    (raw_chunks proofTriple metaNone 4).map (fun c => c.tokens_est) = [5, 2]
      ∧ (split_into_blocks proofTriple).all
          (fun b => decide (estimate_tokens b.text ≤ 4)) = true
      ∧ assembleLoopG 4 [] 0 [proofBlock, proofBlock, proofBlock]
        = [RawOrigin.acc [("*Proof.*").data, ("*Proof.*").data],
           RawOrigin.acc [("*Proof.*").data]] :=
  ⟨by decide, by decide, by decide⟩

/-- Witness for the amended C1: the two-block accumulator group of the
counterexample input satisfies the sum bound. -/
theorem assembler_budget_witness :
    (([("*Proof.*").data, ("*Proof.*").data]).map estimate_tokens).sum ≤ 4 :=
  (assembler_budget 4 metaNone [] [proofBlock, proofBlock, proofBlock]).2
    [("*Proof.*").data, ("*Proof.*").data] (by decide)

/-- Chunks built by `make_chunk` store the estimate of their own text. -/
theorem make_chunk_consistent (text : PyStr) (meta : ChapterMeta) (hdr : PyStr) :
    (make_chunk text meta hdr).tokens_est
      = estimate_tokens (make_chunk text meta hdr).text := rfl

/-- Every chunk flushed by `flushChunk` is consistent. -/
theorem flushChunk_consistent {meta : ChapterMeta} {hdr : PyStr}
    {pending : List PyStr} {c : Chunk} (h : c ∈ flushChunk meta hdr pending) :
    c.tokens_est = estimate_tokens c.text := by
  by_cases hp : pending.isEmpty
  · simp [flushChunk, hp] at h
  · simp [flushChunk, hp] at h
    subst h
    rfl

/-- Every raw chunk emitted by the assembler is consistent. -/
theorem assembleLoop_consistent (maxT : Nat) (meta : ChapterMeta) (hdr : PyStr) :
    ∀ (blocks : List Block) (pending : List PyStr) (pt : Nat) (c : Chunk),
      c ∈ assembleLoop maxT meta hdr pending pt blocks →
      c.tokens_est = estimate_tokens c.text := by
  intro blocks
  induction blocks with
  | nil =>
    intro pending pt c hc
    exact flushChunk_consistent hc
  | cons b rest ih =>
    intro pending pt c hc
    by_cases h1 : maxT < estimate_tokens b.text
    · simp only [assembleLoop, h1, if_true] at hc
      rcases List.mem_append.mp hc with hc | hc
      · rcases List.mem_append.mp hc with hc | hc
        · exact flushChunk_consistent hc
        · rcases List.mem_map.mp hc with ⟨p, _, hp⟩
          subst hp
          rfl
      · exact ih [] 0 c hc
    · by_cases h2 : maxT < pt + estimate_tokens b.text
      · simp only [assembleLoop, h1, h2, if_true, if_false] at hc
        rcases List.mem_append.mp hc with hc | hc
        · exact flushChunk_consistent hc
        · exact ih [b.text] (estimate_tokens b.text) c hc
      · simp only [assembleLoop, h1, h2, if_false] at hc
        exact ih (pending ++ [b.text]) (pt + estimate_tokens b.text) c hc

/-- Every pre-merge raw chunk of a chapter is consistent. -/
theorem raw_chunks_consistent (body : PyStr) (meta : ChapterMeta) (maxT : Nat) :
    ∀ c ∈ raw_chunks body meta maxT, c.tokens_est = estimate_tokens c.text := by
  intro c hc
  obtain ⟨s, _, hcs⟩ := List.mem_flatMap.mp hc
  exact assembleLoop_consistent maxT meta (s.header.getD []) _ [] 0 c hcs

/-- A merged chunk stores the estimate recomputed from its new text. -/
theorem mergedChunk_consistent (p c : Chunk) :
    (mergedChunk p c).tokens_est = estimate_tokens (mergedChunk p c).text := rfl

/-- The merge fold preserves consistency. -/
theorem mergeLoop_consistent (minT maxT : Nat) :
    ∀ (rest : List Chunk) (prev : Chunk),
      prev.tokens_est = estimate_tokens prev.text →
      (∀ c ∈ rest, c.tokens_est = estimate_tokens c.text) →
      ∀ c ∈ mergeLoop minT maxT prev rest,
        c.tokens_est = estimate_tokens c.text := by
  intro rest
  induction rest with
  | nil =>
    intro prev hp _ c hc
    simp [mergeLoop] at hc
    subst hc
    exact hp
  | cons c0 rest ih =>
    intro prev hp hcons c hc
    by_cases hm : mergeCond minT maxT prev c0 = true
    · simp only [mergeLoop, hm, if_true] at hc
      exact ih (mergedChunk prev c0) (mergedChunk_consistent prev c0)
        (fun x hx => hcons x (by simp [hx])) c hc
    · simp only [mergeLoop, hm, if_false, Bool.false_eq_true] at hc
      rcases List.mem_cons.mp hc with hc | hc
      · subst hc; exact hp
      · exact ih c0 (hcons c0 (by simp)) (fun x hx => hcons x (by simp [hx])) c hc

/-- `merge_small_chunks` preserves consistency. -/
theorem merge_small_chunks_consistent (chunks : List Chunk) (minT maxT : Nat)
    (hcons : ∀ c ∈ chunks, c.tokens_est = estimate_tokens c.text) :
    ∀ c ∈ merge_small_chunks chunks minT maxT,
      c.tokens_est = estimate_tokens c.text := by
  intro c hc
  by_cases h : chunks.length ≤ 1
  · have heq : merge_small_chunks chunks minT maxT = chunks := by
      simp [merge_small_chunks, h]
    rw [heq] at hc
    exact hcons c hc
  · rcases chunks with _ | ⟨c0, rest⟩
    · simp at h
    · have heq : merge_small_chunks (c0 :: rest) minT maxT
          = mergeLoop minT maxT c0 rest := by
        simp only [merge_small_chunks, h, if_false]
      rw [heq] at hc
      exact mergeLoop_consistent minT maxT rest c0 (hcons c0 (by simp))
        (fun x hx => hcons x (by simp [hx])) c hc

/-- Claim C10 (confirmed): every chunk in the final list returned by the
chapter chunker stores a `tokens_est` equal to the estimate of its stored
text — both for never-merged chunks (built by `make_chunk`) and for chunks
whose text was rewritten by the merger (which recomputes the estimate). -/
theorem chunk_chapter_tokens_consistent :
    ∀ (body : PyStr) (meta : ChapterMeta) (minT maxT : Nat),
      ∀ c ∈ chunk_chapter_body body meta minT maxT,
        c.tokens_est = estimate_tokens c.text := by
  intro body meta minT maxT c hc
  unfold chunk_chapter_body at hc
  rcases List.mem_map.mp hc with ⟨⟨i, x⟩, hx, hcx⟩
  have hx2 : x ∈ (merge_small_chunks (raw_chunks body meta maxT) minT maxT).filter
      (fun c => 20 ≤ c.tokens_est) := List.snd_mem_of_mem_enum hx
  have hx3 := List.mem_of_mem_filter hx2
  have hxc := merge_small_chunks_consistent (raw_chunks body meta maxT) minT maxT
    (raw_chunks_consistent body meta maxT) x hx3
  subst hcx
  exact hxc

/-- Witness for C10 at a concrete chapter body. -/
theorem chunk_chapter_tokens_consistent_witness :
    (Chunk.tokens_est
        { meta := metaNone, sectionLabel := [],
          text := List.replicate 50 'b' ++ nl2 ++ List.replicate 50 'b',
          tokens_est := 29, chunk_id := 0 })
      = estimate_tokens
        (Chunk.text
          { meta := metaNone, sectionLabel := [],
            text := List.replicate 50 'b' ++ nl2 ++ List.replicate 50 'b',
            tokens_est := 29, chunk_id := 0 }) :=
  chunk_chapter_tokens_consistent (List.replicate 50 'b') metaNone 512 1536
    _ (by decide)
